import Mathlib

/-!
# Verification of the financial report analyzer pipeline

A shallow embedding, in Lean 4, of the pure core of
`financial_report_analyzer.py`: text normalization (`_clean_text`),
chunking (`chunk_text`), prompt-store parsing (`_load_prompts`),
company-name derivation (`_extract_company_name_from_url`), the
per-chunk / combination LLM wrappers (`analyze_chunk`,
`combine_summaries`), and the per-report / batch orchestration
(`analyze_single_report`, `analyze_all_reports`).

Strings are modelled as `List Char`.  External effects (HTTP download,
PDF text extraction, the LLM chat-completion service, and the success
of the output-file write) are modelled as oracle functions supplied in
an environment record; the filesystem is modelled as an explicit state
(the set of live temporary files and the written output files), and a
call counter (`clock`) lets the download oracle answer differently on
successive calls, as a real network does.
-/

namespace FRA

/-- Convert a string literal to the `List Char` representation used
throughout the development. -/
def str (s : String) : List Char := s.data

/-- Whitespace test matching both Python's `str.split()` / `str.strip()`
and the `\s` character class of the `re` module, restricted to the ASCII
whitespace characters (space, tab, newline, carriage return, vertical
tab, form feed). -/
def isSpaceChar (c : Char) : Bool :=
  c = ' ' || c = '\t' || c = '\n' || c = '\r' || c = '\x0b' || c = '\x0c'

/-- Accumulator-based worker for `splitWords`; `acc` holds the current
word reversed. -/
def splitWordsAux : List Char → List Char → List (List Char)
  | [], acc => if acc.isEmpty then [] else [acc.reverse]
  | c :: cs, acc =>
    if isSpaceChar c then
      if acc.isEmpty then splitWordsAux cs []
      else acc.reverse :: splitWordsAux cs []
    else splitWordsAux cs (c :: acc)

/-- Python's `text.split()`: split on runs of whitespace, returning the
(nonempty) words. -/
def splitWords (l : List Char) : List (List Char) := splitWordsAux l []

/-- Python's `' '.join(words)`. -/
def joinWords : List (List Char) → List Char
  | [] => []
  | [w] => w
  | w :: ws => w ++ ' ' :: joinWords ws

example : splitWords (str "  a bc  d ") = [str "a", str "bc", str "d"] := by decide
example : joinWords [str "a", str "bc", str "d"] = str "a bc d" := by decide

/-- The word-grouping loop of `chunk_text`: `cur` is `current_chunk`,
`cnt` is `current_word_count`; each word is appended, and once the
count reaches `chunkSize` the current chunk is flushed; the trailing
`if current_chunk` flush is the `[]` case. -/
def chunkGo (chunkSize : Nat) : List (List Char) → List (List Char) → Nat → List (List (List Char))
  | [], cur, _ => if cur.isEmpty then [] else [cur]
  | w :: ws, cur, cnt =>
    if chunkSize ≤ cnt + 1 then
      (cur ++ [w]) :: chunkGo chunkSize ws [] 0
    else
      chunkGo chunkSize ws (cur ++ [w]) (cnt + 1)

/-- `chunk_text`: split the text on whitespace and greedily group the
words into chunks of `chunkSize` words, re-joined with single spaces
(`' '.join`). -/
def chunk_text (chunkSize : Nat) (text : List Char) : List (List Char) :=
  (chunkGo chunkSize (splitWords text) [] 0).map joinWords

example : chunk_text 2 (str "a b c d e") = [str "a b", str "c d", str "e"] := by decide
example : chunk_text 3 (str "") = [] := by decide

/-! ### Lemmas about the chunking loop -/

lemma chunkGo_join (C : Nat) :
    ∀ (ws cur : List (List Char)) (cnt : Nat), (chunkGo C ws cur cnt).flatten = cur ++ ws := by
  intro ws
  induction ws with
  | nil => intro cur cnt; cases cur <;> simp [chunkGo]
  | cons w ws ih =>
    intro cur cnt
    by_cases h : C ≤ cnt + 1 <;> simp [chunkGo, h, ih]

lemma chunkGo_length (C : Nat) :
    ∀ (ws cur : List (List Char)) (cnt : Nat), cnt = cur.length → cur.length < C →
      (chunkGo C ws cur cnt).length = (cur.length + ws.length + C - 1) / C := by
  intro ws
  induction ws with
  | nil =>
    intro cur cnt hcnt hlt
    cases cur with
    | nil =>
      have h0 : (0 + 0 + C - 1) / C = 0 := Nat.div_eq_of_lt (by omega)
      simpa [chunkGo] using h0.symm
    | cons x xs =>
      have hne : ((x :: xs).isEmpty) = false := by simp
      have h1 : ((x :: xs).length + 0 + C - 1) / C = 1 := by
        apply Nat.div_eq_of_lt_le
        · simp only [List.length_cons]; omega
        · simp only [List.length_cons]
          have : xs.length + 1 < C := by simpa using hlt
          omega
      simp only [chunkGo, hne, Bool.false_eq_true, if_false, List.length_cons,
        List.length_singleton, List.length_nil] at h1 ⊢
      omega
  | cons w ws ih =>
    intro cur cnt hcnt hlt
    subst hcnt
    by_cases h : C ≤ cur.length + 1
    · have hrec := ih [] 0 rfl (show ([] : List (List Char)).length < C by
        simp only [List.length_nil]; omega)
      simp only [List.length_nil] at hrec
      simp only [chunkGo, if_pos h, List.length_cons, hrec]
      have heq : cur.length + (ws.length + 1) + C - 1 = (0 + ws.length + C - 1) + C := by omega
      rw [heq, Nat.add_div_right _ (by omega)]
    · have hlen : (cur ++ [w]).length = cur.length + 1 := by simp
      have hlt2 : (cur ++ [w]).length < C := by omega
      have hrec := ih (cur ++ [w]) (cur.length + 1) hlen.symm hlt2
      simp only [chunkGo, if_neg h, List.length_cons, hrec, hlen]
      congr 1
      omega

lemma chunkGo_mem_bound (C : Nat) :
    ∀ (ws cur : List (List Char)) (cnt : Nat), cnt = cur.length → cur.length < C →
      ∀ ch ∈ chunkGo C ws cur cnt, 1 ≤ ch.length ∧ ch.length ≤ C := by
  intro ws
  induction ws with
  | nil =>
    intro cur cnt hcnt hlt ch hch
    cases cur with
    | nil => simp [chunkGo] at hch
    | cons x xs =>
      have hne : ((x :: xs).isEmpty) = false := by simp
      simp only [chunkGo, hne, Bool.false_eq_true, if_false, List.mem_singleton] at hch
      subst hch
      simp only [List.length_cons]
      have : xs.length + 1 < C := by simpa using hlt
      omega
  | cons w ws ih =>
    intro cur cnt hcnt hlt ch hch
    subst hcnt
    by_cases h : C ≤ cur.length + 1
    · simp only [chunkGo, if_pos h, List.mem_cons] at hch
      rcases hch with rfl | hch
      · simp only [List.length_append, List.length_cons, List.length_nil]
        omega
      · exact ih [] 0 rfl (show ([] : List (List Char)).length < C by simp; omega) ch hch
    · have hlen : (cur ++ [w]).length = cur.length + 1 := by simp
      simp only [chunkGo, if_neg h] at hch
      exact ih (cur ++ [w]) (cur.length + 1) hlen.symm (by omega) ch hch

lemma chunkGo_dropLast (C : Nat) :
    ∀ (ws cur : List (List Char)) (cnt : Nat), cnt = cur.length → cur.length < C →
      ∀ ch ∈ (chunkGo C ws cur cnt).dropLast, ch.length = C := by
  intro ws
  induction ws with
  | nil =>
    intro cur cnt hcnt hlt ch hch
    cases cur with
    | nil => simp [chunkGo] at hch
    | cons x xs =>
      have hne : ((x :: xs).isEmpty) = false := by simp
      simp only [chunkGo, hne, Bool.false_eq_true, if_false, List.dropLast_single] at hch
      simp at hch
  | cons w ws ih =>
    intro cur cnt hcnt hlt ch hch
    subst hcnt
    by_cases h : C ≤ cur.length + 1
    · simp only [chunkGo, if_pos h] at hch
      rcases hrest : chunkGo C ws [] 0 with _ | ⟨r, rs⟩
      · rw [hrest] at hch; simp at hch
      · rw [hrest, List.dropLast_cons₂, List.mem_cons] at hch
        rcases hch with rfl | hch
        · simp only [List.length_append, List.length_cons, List.length_nil]
          omega
        · exact ih [] 0 rfl (show ([] : List (List Char)).length < C by simp; omega) ch
            (by rw [hrest]; exact hch)
    · have hlen : (cur ++ [w]).length = cur.length + 1 := by simp
      simp only [chunkGo, if_neg h] at hch
      exact ih (cur ++ [w]) (cur.length + 1) hlen.symm (by omega) ch hch

/-! ### Words produced by `splitWords` are nonempty and whitespace-free,
and `splitWords` is a left inverse of `joinWords` on such word lists. -/

lemma splitWordsAux_good :
    ∀ (l acc : List Char), (∀ c ∈ acc, isSpaceChar c = false) →
      ∀ w ∈ splitWordsAux l acc, w ≠ [] ∧ ∀ c ∈ w, isSpaceChar c = false := by
  intro l
  induction l with
  | nil =>
    intro acc hacc w hw
    cases acc with
    | nil => simp [splitWordsAux] at hw
    | cons a as =>
      have hne : ((a :: as).isEmpty) = false := by simp
      simp only [splitWordsAux, hne, Bool.false_eq_true, if_false, List.mem_singleton] at hw
      subst hw
      refine ⟨by simp, ?_⟩
      intro c hc
      exact hacc c (List.mem_reverse.mp hc)
  | cons x xs ih =>
    intro acc hacc w hw
    by_cases hx : isSpaceChar x
    · cases acc with
      | nil =>
        simp only [splitWordsAux, hx, if_pos, List.isEmpty_nil, if_true] at hw
        exact ih [] (by simp) w hw
      | cons a as =>
        have hne : ((a :: as).isEmpty) = false := by simp
        simp only [splitWordsAux, hx, if_true, hne, Bool.false_eq_true, if_false,
          List.mem_cons] at hw
        rcases hw with rfl | hw
        · refine ⟨by simp, ?_⟩
          intro c hc
          exact hacc c (List.mem_reverse.mp hc)
        · exact ih [] (by simp) w hw
    · have hx' : isSpaceChar x = false := by simpa using hx
      simp only [splitWordsAux, hx', Bool.false_eq_true, if_false] at hw
      refine ih (x :: acc) ?_ w hw
      intro c hc
      rcases List.mem_cons.mp hc with rfl | hc
      · exact hx'
      · exact hacc c hc

lemma splitWords_good (l : List Char) :
    ∀ w ∈ splitWords l, w ≠ [] ∧ ∀ c ∈ w, isSpaceChar c = false :=
  splitWordsAux_good l [] (by simp)

lemma splitWordsAux_append_word :
    ∀ (w : List Char), (∀ c ∈ w, isSpaceChar c = false) →
      ∀ (rest acc : List Char),
        splitWordsAux (w ++ rest) acc = splitWordsAux rest (w.reverse ++ acc) := by
  intro w
  induction w with
  | nil => intro _ rest acc; simp
  | cons x xs ih =>
    intro hw rest acc
    have hx : isSpaceChar x = false := hw x (by simp)
    have hxs : ∀ c ∈ xs, isSpaceChar c = false := fun c hc => hw c (by simp [hc])
    simp only [List.cons_append, splitWordsAux, hx, Bool.false_eq_true, if_false,
      List.append_eq]
    rw [ih hxs rest (x :: acc)]
    simp

lemma splitWords_joinWords :
    ∀ (ws : List (List Char)),
      (∀ w ∈ ws, w ≠ [] ∧ ∀ c ∈ w, isSpaceChar c = false) →
      splitWords (joinWords ws) = ws := by
  intro ws
  induction ws with
  | nil => intro _; rfl
  | cons w ws ih =>
    intro h
    have hw := h w (by simp)
    have hws : ∀ v ∈ ws, v ≠ [] ∧ ∀ c ∈ v, isSpaceChar c = false :=
      fun v hv => h v (by simp [hv])
    cases ws with
    | nil =>
      show splitWords (joinWords [w]) = [w]
      have hjw : joinWords [w] = w := rfl
      rw [hjw]
      show splitWordsAux w [] = [w]
      have h2 : splitWordsAux w [] = splitWordsAux [] w.reverse := by
        simpa using splitWordsAux_append_word w hw.2 [] []
      rw [h2]
      have hne : (w.reverse).isEmpty = false := by
        simp only [List.isEmpty_eq_false, ne_eq, List.reverse_eq_nil_iff]
        exact hw.1
      simp [splitWordsAux, hne]
    | cons v vs =>
      show splitWords (w ++ ' ' :: joinWords (v :: vs)) = w :: v :: vs
      unfold splitWords
      rw [splitWordsAux_append_word w hw.2 (' ' :: joinWords (v :: vs)) []]
      have hsp : isSpaceChar ' ' = true := by decide
      have hne : (w.reverse ++ ([] : List Char)).isEmpty = false := by
        simp only [List.append_nil, List.isEmpty_eq_false, ne_eq, List.reverse_eq_nil_iff]
        exact hw.1
      simp only [splitWordsAux, hsp, if_true, hne, Bool.false_eq_true, if_false]
      have hrr : (w.reverse ++ ([] : List Char)).reverse = w := by simp
      rw [hrr]
      exact congrArg (w :: ·) (ih hws)

/-- Every word of every word-chunk produced by the chunking loop on the
words of `text` is a word of `text`, hence nonempty and whitespace-free. -/
lemma chunkGo_chunk_good (C : Nat) (text : List Char) :
    ∀ ch ∈ chunkGo C (splitWords text) [] 0,
      ∀ w ∈ ch, w ≠ [] ∧ ∀ c ∈ w, isSpaceChar c = false := by
  intro ch hch w hw
  have hj : w ∈ (chunkGo C (splitWords text) [] 0).flatten :=
    List.mem_flatten.mpr ⟨ch, hch, hw⟩
  rw [chunkGo_join] at hj
  simp only [List.nil_append] at hj
  exact splitWords_good text w hj

/-- **C1.**  For every text and chunk size `C > 0`, `chunk_text` splits
the text on whitespace into `W` words and returns exactly `⌈W/C⌉`
chunks (none when `W = 0`); every chunk except possibly the last
contains exactly `C` words, every chunk contains between 1 and `C`
words, and concatenating the whitespace-split words of all chunks in
order reproduces the original word sequence exactly. -/
theorem chunk_text_spec (C : Nat) (text : List Char) (hC : 0 < C) :
    (chunk_text C text).length = ((splitWords text).length + C - 1) / C ∧
    (∀ ch ∈ (chunk_text C text).dropLast, (splitWords ch).length = C) ∧
    (∀ ch ∈ chunk_text C text, 1 ≤ (splitWords ch).length ∧ (splitWords ch).length ≤ C) ∧
    ((chunk_text C text).map splitWords).flatten = splitWords text ∧
    (splitWords text = [] → chunk_text C text = []) := by
  have hlen0 : (([] : List (List Char))).length < C := by simpa using hC
  have hsplit : ∀ ch ∈ chunkGo C (splitWords text) [] 0, splitWords (joinWords ch) = ch :=
    fun ch hch => splitWords_joinWords ch (chunkGo_chunk_good C text ch hch)
  refine ⟨?_, ?_, ?_, ?_, ?_⟩
  · rw [chunk_text, List.length_map]
    simpa using chunkGo_length C (splitWords text) [] 0 rfl hlen0
  · intro ch hch
    rw [chunk_text, ← List.map_dropLast] at hch
    rcases List.mem_map.mp hch with ⟨wc, hwc, rfl⟩
    rw [hsplit wc (List.dropLast_subset _ hwc)]
    exact chunkGo_dropLast C (splitWords text) [] 0 rfl hlen0 wc hwc
  · intro ch hch
    rcases List.mem_map.mp hch with ⟨wc, hwc, rfl⟩
    rw [hsplit wc hwc]
    exact chunkGo_mem_bound C (splitWords text) [] 0 rfl hlen0 wc hwc
  · rw [chunk_text, List.map_map]
    have hmap : (chunkGo C (splitWords text) [] 0).map (splitWords ∘ joinWords) =
        chunkGo C (splitWords text) [] 0 := by
      have hcongr :
          List.map (splitWords ∘ joinWords) (chunkGo C (splitWords text) [] 0) =
          List.map id (chunkGo C (splitWords text) [] 0) :=
        List.map_congr_left (fun wc hwc => hsplit wc hwc)
      rw [hcongr, List.map_id]
    rw [hmap]
    simpa using chunkGo_join C (splitWords text) [] 0
  · intro h
    rw [chunk_text, h]
    simp [chunkGo]

/-- Witness for `chunk_text_spec`, at chunk size 2 and text `"a b c"`. -/
theorem chunk_text_spec_witness :
    (chunk_text 2 (str "a b c")).length = ((splitWords (str "a b c")).length + 2 - 1) / 2 ∧
    (∀ ch ∈ (chunk_text 2 (str "a b c")).dropLast, (splitWords ch).length = 2) ∧
    (∀ ch ∈ chunk_text 2 (str "a b c"),
      1 ≤ (splitWords ch).length ∧ (splitWords ch).length ≤ 2) ∧
    ((chunk_text 2 (str "a b c")).map splitWords).flatten = splitWords (str "a b c") ∧
    (splitWords (str "a b c") = [] → chunk_text 2 (str "a b c") = []) :=
  chunk_text_spec 2 (str "a b c") (by decide)

/-! ### The text normalizer `_clean_text`

`_clean_text` applies, in order:
1. `re.sub(r'\s+', ' ', text)` — collapse each whitespace run to one space;
2. `re.sub(r'\n\s*\d+\s*\n', '\n', text)` — drop isolated page-number lines;
3. `re.sub(r'\n\s*\n\s*\n', '\n\n', text)` — collapse runs of blank lines;
4. `.strip()`.
The two `re.sub` calls are modelled by explicit scanners implementing the
leftmost, greedy-with-backtracking match semantics of the `re` module. -/

/-- Worker for whitespace collapsing; `inRun` records whether the previous
character was part of a whitespace run already replaced by a space. -/
def collapseAux : List Char → Bool → List Char
  | [], _ => []
  | c :: cs, inRun =>
    if isSpaceChar c then
      if inRun then collapseAux cs true else ' ' :: collapseAux cs true
    else c :: collapseAux cs false

/-- `re.sub(r'\s+', ' ', l)`: each maximal whitespace run becomes one space. -/
def collapseWS (l : List Char) : List Char := collapseAux l false

/-- Remove trailing whitespace. -/
def stripEnd (l : List Char) : List Char := (l.reverse.dropWhile isSpaceChar).reverse

/-- Python's `str.strip()`: remove leading and trailing whitespace. -/
def stripWS (l : List Char) : List Char := stripEnd (l.dropWhile isSpaceChar)

/-- Index of the last `'\n'` in a list, if any. -/
def lastNewlineIdx : List Char → Option Nat
  | [] => none
  | c :: cs =>
    match lastNewlineIdx cs with
    | some i => some (i + 1)
    | none => if c = '\n' then some 0 else none

/-- Try to match `\n\s*\d+\s*\n` at the head of `l`; on success return the
remainder after the match.  The first `\s*` is greedy and needs no
backtracking against `\d+` (the classes are disjoint); the second `\s*`
backtracks so that the final consumed character is the last `'\n'` of the
trailing whitespace run. -/
def matchPageNum (l : List Char) : Option (List Char) :=
  match l with
  | [] => none
  | c :: rest =>
    if c = '\n' then
      let r1 := rest.dropWhile isSpaceChar
      if (r1.takeWhile Char.isDigit).isEmpty then none
      else
        let r2 := r1.dropWhile Char.isDigit
        match lastNewlineIdx (r2.takeWhile isSpaceChar) with
        | some i => some (r2.drop (i + 1))
        | none => none
    else none

/-- Fueled global-substitution scanner for `re.sub(r'\n\s*\d+\s*\n', '\n', ·)`:
find the leftmost match, emit `'\n'`, continue after the match. -/
def subPageNumGo : Nat → List Char → List Char
  | 0, l => l
  | _ + 1, [] => []
  | fuel + 1, c :: cs =>
    match matchPageNum (c :: cs) with
    | some rest => '\n' :: subPageNumGo fuel rest
    | none => c :: subPageNumGo fuel cs

/-- `re.sub(r'\n\s*\d+\s*\n', '\n', l)`. -/
def subPageNum (l : List Char) : List Char := subPageNumGo l.length l

/-- Indices of the `'\n'` characters of a list, in descending order. -/
def newlineIdxsDesc : List Char → List Nat
  | [] => []
  | c :: cs =>
    ((newlineIdxsDesc cs).map (· + 1)) ++ (if c = '\n' then [0] else [])

/-- The remainders of `l` after each possible match of `\s*\n` at its head,
in greedy order (longest whitespace prefix first).  A match consumes `j`
whitespace characters followed by a `'\n'`, so the `'\n'` itself sits in
the leading whitespace run of `l`. -/
def wsNlRemainders (l : List Char) : List (List Char) :=
  (newlineIdxsDesc (l.takeWhile isSpaceChar)).map (fun j => l.drop (j + 1))

/-- Try to match `\n\s*\n\s*\n` at the head of `l`; on success return the
remainder after the (greedy, leftmost) match. -/
def matchBlankRun (l : List Char) : Option (List Char) :=
  match l with
  | [] => none
  | c :: rest =>
    if c = '\n' then
      (wsNlRemainders rest).findSome? (fun r1 => (wsNlRemainders r1).head?)
    else none

/-- Fueled global-substitution scanner for
`re.sub(r'\n\s*\n\s*\n', '\n\n', ·)`. -/
def subBlankGo : Nat → List Char → List Char
  | 0, l => l
  | _ + 1, [] => []
  | fuel + 1, c :: cs =>
    match matchBlankRun (c :: cs) with
    | some rest => '\n' :: '\n' :: subBlankGo fuel rest
    | none => c :: subBlankGo fuel cs

/-- `re.sub(r'\n\s*\n\s*\n', '\n\n', l)`. -/
def subBlank (l : List Char) : List Char := subBlankGo l.length l

/-- `_clean_text`: the whitespace collapse, the two newline-based
substitutions, and the final strip; the empty string is returned as is. -/
def _clean_text (t : List Char) : List Char :=
  if t.isEmpty then []
  else stripWS (subBlank (subPageNum (collapseWS t)))

example : _clean_text (str "  a\n 3 \n b  ") = str "a 3 b" := by decide
example : _clean_text (str "") = [] := by decide

/-! ### C9 lemma chain -/

lemma collapseAux_no_newline : ∀ (l : List Char) (b : Bool), '\n' ∉ collapseAux l b := by
  intro l
  induction l with
  | nil => intro b; simp [collapseAux]
  | cons c cs ih =>
    intro b
    by_cases hc : isSpaceChar c
    · cases b with
      | true => simpa [collapseAux, hc] using ih true
      | false =>
        simp only [collapseAux, hc, if_true]
        intro hmem
        rcases List.mem_cons.mp hmem with h | h
        · exact absurd h (by decide)
        · exact ih true h
    · have hc' : isSpaceChar c = false := by simpa using hc
      simp only [collapseAux, hc', Bool.false_eq_true, if_false]
      intro hmem
      rcases List.mem_cons.mp hmem with h | h
      · rw [← h] at hc'
        exact absurd hc' (by decide)
      · exact ih false h

lemma matchPageNum_none_of_ne {c : Char} (cs : List Char) (h : c ≠ '\n') :
    matchPageNum (c :: cs) = none := by
  simp [matchPageNum, h]

lemma matchBlankRun_none_of_ne {c : Char} (cs : List Char) (h : c ≠ '\n') :
    matchBlankRun (c :: cs) = none := by
  simp [matchBlankRun, h]

lemma subPageNumGo_id : ∀ (fuel : Nat) (l : List Char), '\n' ∉ l → subPageNumGo fuel l = l := by
  intro fuel
  induction fuel with
  | zero => intro l _; rfl
  | succ n ih =>
    intro l hl
    cases l with
    | nil => rfl
    | cons c cs =>
      have hc : c ≠ '\n' := fun h => hl (h ▸ List.mem_cons_self c cs)
      have hcs : '\n' ∉ cs := fun h => hl (List.mem_cons_of_mem c h)
      simp only [subPageNumGo, matchPageNum_none_of_ne cs hc]
      rw [ih cs hcs]

lemma subBlankGo_id : ∀ (fuel : Nat) (l : List Char), '\n' ∉ l → subBlankGo fuel l = l := by
  intro fuel
  induction fuel with
  | zero => intro l _; rfl
  | succ n ih =>
    intro l hl
    cases l with
    | nil => rfl
    | cons c cs =>
      have hc : c ≠ '\n' := fun h => hl (h ▸ List.mem_cons_self c cs)
      have hcs : '\n' ∉ cs := fun h => hl (List.mem_cons_of_mem c h)
      simp only [subBlankGo, matchBlankRun_none_of_ne cs hc]
      rw [ih cs hcs]

/-- In-run collapsing first skips the whitespace run. -/
lemma collapseAux_true_skip :
    ∀ (l : List Char), collapseAux l true = collapseAux (l.dropWhile isSpaceChar) false := by
  intro l
  induction l with
  | nil => rfl
  | cons c cs ih =>
    by_cases hc : isSpaceChar c
    · simp only [collapseAux, hc, if_true, List.dropWhile_cons_of_pos hc]
      exact ih
    · have hc' : isSpaceChar c = false := by simpa using hc
      simp [collapseAux, hc', List.dropWhile_cons_of_neg hc]

/-- Word splitting with an empty accumulator first skips the whitespace run. -/
lemma splitWordsAux_nil_skip :
    ∀ (l : List Char), splitWordsAux l [] = splitWordsAux (l.dropWhile isSpaceChar) [] := by
  intro l
  induction l with
  | nil => rfl
  | cons c cs ih =>
    by_cases hc : isSpaceChar c
    · simp only [splitWordsAux, hc, if_true, List.isEmpty_nil, List.dropWhile_cons_of_pos hc]
      exact ih
    · have hc' : isSpaceChar c = false := by simpa using hc
      simp [splitWordsAux, hc', List.dropWhile_cons_of_neg hc]

/-- Collapsing passes a whitespace-free prefix through unchanged. -/
lemma collapseAux_word :
    ∀ (w : List Char), (∀ c ∈ w, isSpaceChar c = false) →
      ∀ (rest : List Char), collapseAux (w ++ rest) false = w ++ collapseAux rest false := by
  intro w
  induction w with
  | nil => intro _ rest; rfl
  | cons x xs ih =>
    intro hw rest
    have hx : isSpaceChar x = false := hw x (by simp)
    have hxs : ∀ c ∈ xs, isSpaceChar c = false := fun c hc => hw c (by simp [hc])
    simp only [List.cons_append, collapseAux, hx, Bool.false_eq_true, if_false,
      List.append_eq]
    rw [ih hxs rest]

lemma dropWhile_head_false {p : Char → Bool} :
    ∀ (l : List Char) {s : Char} {rest : List Char},
      l.dropWhile p = s :: rest → p s = false := by
  intro l
  induction l with
  | nil => intro s rest h; simp at h
  | cons a as ih =>
    intro s rest h
    by_cases ha : p a
    · rw [List.dropWhile_cons_of_pos ha] at h
      exact ih h
    · rw [List.dropWhile_cons_of_neg ha] at h
      cases h
      simpa using ha

lemma splitWordsAux_ne_nil :
    ∀ (l acc : List Char), acc ≠ [] → splitWordsAux l acc ≠ [] := by
  intro l
  induction l with
  | nil =>
    intro acc hacc
    have : acc.isEmpty = false := by simpa using hacc
    simp [splitWordsAux, this]
  | cons c cs ih =>
    intro acc hacc
    by_cases hc : isSpaceChar c
    · have : acc.isEmpty = false := by simpa using hacc
      simp [splitWordsAux, hc, this]
    · have hc' : isSpaceChar c = false := by simpa using hc
      simp only [splitWordsAux, hc', Bool.false_eq_true, if_false]
      exact ih (c :: acc) (by simp)

lemma dropWhile_eq_self_of_false {p : Char → Bool} (l : List Char)
    (h : ∀ c ∈ l, p c = false) : l.dropWhile p = l := by
  cases l with
  | nil => rfl
  | cons a as => exact List.dropWhile_cons_of_neg (by simp [h a (by simp)])

lemma dropWhile_ne_nil_of_mem {p : Char → Bool} :
    ∀ (l : List Char) {c : Char}, c ∈ l → p c = false → l.dropWhile p ≠ [] := by
  intro l
  induction l with
  | nil => intro c hc _; simp at hc
  | cons a as ih =>
    intro c hc hpc
    by_cases ha : p a
    · rw [List.dropWhile_cons_of_pos ha]
      rcases List.mem_cons.mp hc with rfl | hc
      · rw [hpc] at ha; simp at ha
      · exact ih hc hpc
    · rw [List.dropWhile_cons_of_neg ha]
      simp

lemma stripWS_cons_space {c : Char} (h : isSpaceChar c = true) (l : List Char) :
    stripWS (c :: l) = stripWS l := by
  unfold stripWS
  rw [List.dropWhile_cons_of_pos h]

lemma stripEnd_word {w : List Char} (hsp : ∀ c ∈ w, isSpaceChar c = false) :
    stripEnd w = w := by
  unfold stripEnd
  rw [dropWhile_eq_self_of_false w.reverse (fun c hc => hsp c (List.mem_reverse.mp hc)),
    List.reverse_reverse]

lemma stripWS_word {w : List Char} (hsp : ∀ c ∈ w, isSpaceChar c = false) :
    stripWS w = w := by
  unfold stripWS
  rw [dropWhile_eq_self_of_false w hsp]
  exact stripEnd_word hsp

lemma stripWS_word_space (w : List Char) (hw : w ≠ [])
    (hsp : ∀ c ∈ w, isSpaceChar c = false) : stripWS (w ++ [' ']) = w := by
  obtain ⟨a, as, rfl⟩ := List.exists_cons_of_ne_nil hw
  unfold stripWS stripEnd
  rw [show (a :: as) ++ [' '] = a :: (as ++ [' ']) from rfl]
  rw [List.dropWhile_cons_of_neg (by simp [hsp a (by simp)])]
  have h1 : (a :: (as ++ [' '])).reverse = ' ' :: (as.reverse ++ [a]) := by simp
  rw [h1, List.dropWhile_cons_of_pos (by decide)]
  rw [dropWhile_eq_self_of_false _ (by
    intro d hd
    rcases List.mem_append.mp hd with hd | hd
    · exact hsp d (by simp [List.mem_reverse.mp hd])
    · simp only [List.mem_singleton] at hd
      exact hd ▸ hsp a (by simp))]
  simp

lemma stripWS_append_sep (w : List Char) (hw : w ≠ [])
    (hsp : ∀ c ∈ w, isSpaceChar c = false) {c2 : Char} (hc2 : isSpaceChar c2 = false)
    (X' : List Char) :
    stripWS (w ++ ' ' :: (c2 :: X')) = w ++ ' ' :: stripWS (c2 :: X') := by
  obtain ⟨a, as, rfl⟩ := List.exists_cons_of_ne_nil hw
  unfold stripWS stripEnd
  rw [show (a :: as) ++ ' ' :: (c2 :: X') = a :: (as ++ ' ' :: (c2 :: X')) from rfl]
  rw [List.dropWhile_cons_of_neg (by simp [hsp a (by simp)]),
    List.dropWhile_cons_of_neg (by simp [hc2])]
  have hXrev : (c2 :: X').reverse.dropWhile isSpaceChar ≠ [] :=
    dropWhile_ne_nil_of_mem _ (List.mem_reverse.mpr (by simp)) hc2
  have h1 : (a :: (as ++ ' ' :: (c2 :: X'))).reverse =
      (c2 :: X').reverse ++ (' ' :: (as.reverse ++ [a])) := by simp
  rw [h1, List.dropWhile_append, if_neg (by simpa using hXrev)]
  simp [List.append_assoc]

/-- Core equivalence: collapsing whitespace runs and stripping equals
splitting into words and re-joining with single spaces. -/
lemma stripWS_collapse :
    ∀ (n : Nat) (l : List Char), l.length ≤ n →
      stripWS (collapseAux l false) = joinWords (splitWordsAux l []) := by
  intro n
  induction n with
  | zero =>
    intro l hl
    have : l = [] := List.eq_nil_of_length_eq_zero (Nat.le_zero.mp hl)
    subst this
    rfl
  | succ n ih =>
    intro l hl
    cases l with
    | nil => rfl
    | cons c cs =>
      have hcs : cs.length ≤ n := by simpa using hl
      by_cases hc : isSpaceChar c
      · have h1 : collapseAux (c :: cs) false = ' ' :: collapseAux cs true := by
          simp [collapseAux, hc]
        have h2 : splitWordsAux (c :: cs) [] = splitWordsAux (cs.dropWhile isSpaceChar) [] := by
          simp only [splitWordsAux, hc, if_true, List.isEmpty_nil]
          exact splitWordsAux_nil_skip cs
        rw [h1, stripWS_cons_space (by decide), collapseAux_true_skip, h2]
        exact ih _ (le_trans (List.dropWhile_sublist isSpaceChar).length_le hcs)
      · have hc' : isSpaceChar c = false := by simpa using hc
        have hdecomp : c :: cs =
            (c :: cs.takeWhile (fun d => !isSpaceChar d)) ++ cs.dropWhile (fun d => !isSpaceChar d) := by
          rw [List.cons_append, List.takeWhile_append_dropWhile]
        have hwsp : ∀ d ∈ c :: cs.takeWhile (fun d => !isSpaceChar d), isSpaceChar d = false := by
          intro d hd
          rcases List.mem_cons.mp hd with rfl | hd
          · exact hc'
          · simpa using List.mem_takeWhile_imp hd
        rw [hdecomp, collapseAux_word _ hwsp, splitWordsAux_append_word _ hwsp]
        rcases hrest : cs.dropWhile (fun d => !isSpaceChar d) with _ | ⟨s, rest'⟩
        · rw [show collapseAux ([] : List Char) false = [] from rfl, List.append_nil,
            stripWS_word hwsp]
          have hne : ((c :: cs.takeWhile (fun d => !isSpaceChar d)).reverse ++
              ([] : List Char)).isEmpty = false := by simp
          simp only [splitWordsAux, hne, Bool.false_eq_true, if_false]
          simp [joinWords]
        · have hs : isSpaceChar s = true := by
            have := dropWhile_head_false cs hrest
            simpa using this
          have h3 : collapseAux (s :: rest') false = ' ' :: collapseAux rest' true := by
            simp [collapseAux, hs]
          have hrne : ((c :: cs.takeWhile (fun d => !isSpaceChar d)).reverse ++
              ([] : List Char)).isEmpty = false := by simp
          have h4 : splitWordsAux (s :: rest')
              ((c :: cs.takeWhile (fun d => !isSpaceChar d)).reverse ++ []) =
              (c :: cs.takeWhile (fun d => !isSpaceChar d)) :: splitWordsAux rest' [] := by
            simp only [splitWordsAux, hs, if_true, hrne, Bool.false_eq_true, if_false]
            simp
          rw [h3, h4, collapseAux_true_skip, splitWordsAux_nil_skip rest']
          have hlen2 : (rest'.dropWhile isSpaceChar).length ≤ n := by
            have l1 : (rest').length + 1 ≤ cs.length := by
              have hsub : (cs.dropWhile (fun d => !isSpaceChar d)).length ≤ cs.length :=
                (List.dropWhile_sublist (fun d => !isSpaceChar d)).length_le
              rw [hrest] at hsub
              simpa using hsub
            have l2 : (rest'.dropWhile isSpaceChar).length ≤ rest'.length :=
              (List.dropWhile_sublist isSpaceChar).length_le
            omega
          rcases hr2 : rest'.dropWhile isSpaceChar with _ | ⟨c2, r2'⟩
          · rw [show collapseAux ([] : List Char) false = [] from rfl,
              show splitWordsAux ([] : List Char) [] = [] from rfl,
              show (' ' :: ([] : List Char)) = [' '] from rfl,
              stripWS_word_space _ (by simp) hwsp]
            rfl
          · have hc2 : isSpaceChar c2 = false := dropWhile_head_false rest' hr2
            have hX : collapseAux (c2 :: r2') false = c2 :: collapseAux r2' false := by
              simp [collapseAux, hc2]
            have hrec := ih (c2 :: r2') (by rw [← hr2]; exact hlen2)
            rw [hX] at hrec
            have hsplitne : splitWordsAux (c2 :: r2') [] ≠ [] := by
              simp only [splitWordsAux, hc2, Bool.false_eq_true, if_false]
              exact splitWordsAux_ne_nil r2' [c2] (by simp)
            rcases List.exists_cons_of_ne_nil hsplitne with ⟨v, vs, hvvs⟩
            rw [hX, stripWS_append_sep _ (by simp) hwsp hc2, hrec, hvvs]
            rfl

lemma mem_stripWS {c : Char} {l : List Char} (h : c ∈ stripWS l) : c ∈ l := by
  unfold stripWS stripEnd at h
  have h1 := List.dropWhile_subset isSpaceChar (List.mem_reverse.mp h)
  exact List.dropWhile_subset isSpaceChar (List.mem_reverse.mp h1)

/-- **C9.**  `_clean_text` returns exactly the input's whitespace-split
words re-joined by single spaces, so its output never contains a newline;
consequently the page-number-removal substitution and the
blank-line-collapsing substitution, which both require a newline to
match, are no-ops on the already-collapsed text. -/
theorem clean_text_spec (t : List Char) :
    _clean_text t = joinWords (splitWords t) ∧
    '\n' ∉ _clean_text t ∧
    subPageNum (collapseWS t) = collapseWS t ∧
    subBlank (subPageNum (collapseWS t)) = subPageNum (collapseWS t) := by
  have hnl : '\n' ∉ collapseWS t := collapseAux_no_newline t false
  have h3 : subPageNum (collapseWS t) = collapseWS t := subPageNumGo_id _ _ hnl
  have h4 : subBlank (subPageNum (collapseWS t)) = subPageNum (collapseWS t) := by
    rw [h3]
    exact subBlankGo_id _ _ hnl
  have h1 : _clean_text t = joinWords (splitWords t) := by
    unfold _clean_text
    rcases t with _ | ⟨c, cs⟩
    · rfl
    · rw [if_neg (by simp), h4, h3]
      exact stripWS_collapse (c :: cs).length (c :: cs) (Nat.le_refl _)
  refine ⟨h1, ?_, h3, h4⟩
  intro hmem
  have h2 : _clean_text t = stripWS (collapseWS t) := by
    unfold _clean_text
    rcases t with _ | ⟨c, cs⟩
    · rfl
    · rw [if_neg (by simp), h4, h3]
  rw [h2] at hmem
  exact hnl (mem_stripWS hmem)

/-! ### The prompt store: `_load_prompts`

The prompt file content is split on `'['`; every piece after the first
that contains a `']'` contributes `name.strip() -> body.strip()` to a
dict (overwrite semantics); pieces with no `']'` are skipped.  After
parsing, each required prompt name must be a key of the dict, otherwise
a `ValueError` is raised; a missing file raises `FileNotFoundError`. -/

/-- Worker for `splitOnChar`; `acc` holds the current field reversed. -/
def splitOnCharAux (sep : Char) : List Char → List Char → List (List Char)
  | [], acc => [acc.reverse]
  | c :: cs, acc =>
    if c = sep then acc.reverse :: splitOnCharAux sep cs []
    else splitOnCharAux sep cs (c :: acc)

/-- Python's `content.split(sep)` for a one-character separator: all
fields, empty fields included. -/
def splitOnChar (sep : Char) (l : List Char) : List (List Char) := splitOnCharAux sep l []

/-- Python's `s.split(sep, 1)` for a one-character separator, returning
`none` when the separator does not occur (which is exactly the
`']' not in section` guard of the source). -/
def splitOnce (sep : Char) : List Char → Option (List Char × List Char)
  | [] => none
  | c :: cs =>
    if c = sep then some ([], cs)
    else
      match splitOnce sep cs with
      | some (a, b) => some (c :: a, b)
      | none => none

/-- Key membership in a Python-dict model (insertion-ordered association
list with `List Char` keys). -/
def dictContains {β : Type} (d : List (List Char × β)) (k : List Char) : Bool :=
  d.any (fun p => p.1 == k)

/-- Python-dict assignment `d[k] = v`: overwrite in place if the key
exists (keeping its insertion position), else append. -/
def dictInsert {β : Type} (d : List (List Char × β)) (k : List Char) (v : β) :
    List (List Char × β) :=
  if dictContains d k then d.map (fun p => if p.1 == k then (k, v) else p)
  else d ++ [(k, v)]

/-- Python-dict lookup `d.get(k)`. -/
def dictGet {β : Type} (d : List (List Char × β)) (k : List Char) : Option β :=
  (d.find? (fun p => p.1 == k)).map (fun p => p.2)

/-- One iteration of the parsing loop of `_load_prompts`: skip the piece
if it has no `']'`, else record `name.strip() -> body.strip()`. -/
def insertSection (prompts : List (List Char × List Char)) (sec : List Char) :
    List (List Char × List Char) :=
  match splitOnce ']' sec with
  | none => prompts
  | some (name, body) => dictInsert prompts (stripWS name) (stripWS body)

/-- The parsing phase of `_load_prompts`: split the file content on `'['`,
drop the first piece, and fold the sections into a dict. -/
def parsePrompts (content : List Char) : List (List Char × List Char) :=
  ((splitOnChar '[' content).tail).foldl insertSection []

/-- The two required prompt names, in the order the source checks them. -/
def requiredPrompts : List (List Char) :=
  [str "CHUNK_ANALYSIS_PROMPT", str "SUMMARY_COMBINATION_PROMPT"]

/-- The failure modes of `_load_prompts`: `FileNotFoundError`, or the
`ValueError` naming the first missing required section. -/
inductive LoadError where
  | fileNotFound : LoadError
  | missingPrompt : List Char → LoadError
deriving DecidableEq

/-- `_load_prompts`: parse the prompt file and require that every name in
`requiredPrompts` is a key of the resulting store.  Note the source checks
only `required not in prompts` — it does not reject empty-string values. -/
def _load_prompts (file : Option (List Char)) :
    Except LoadError (List (List Char × List Char)) :=
  match file with
  | none => Except.error LoadError.fileNotFound
  | some content =>
    let prompts := parsePrompts content
    match requiredPrompts.find? (fun r => !dictContains prompts r) with
    | some r => Except.error (LoadError.missingPrompt r)
    | none => Except.ok prompts

example : parsePrompts (str "[A]x[B]y") = [(str "A", str "x"), (str "B", str "y")] := by decide
example : parsePrompts (str "[A]x[A]y") = [(str "A", str "y")] := by decide
example : parsePrompts (str "[A]x[B") = [(str "A", str "x")] := by decide

lemma splitOnce_none_of_not_mem {sep : Char} :
    ∀ (l : List Char), sep ∉ l → splitOnce sep l = none := by
  intro l
  induction l with
  | nil => intro _; rfl
  | cons c cs ih =>
    intro h
    have hc : ¬c = sep := fun he => h (he ▸ List.mem_cons_self c cs)
    have hcs : sep ∉ cs := fun hm => h (List.mem_cons_of_mem c hm)
    simp only [splitOnce, if_neg hc, ih hcs]

lemma splitOnCharAux_no_sep (sep : Char) :
    ∀ (l acc : List Char), sep ∉ l → splitOnCharAux sep l acc = [acc.reverse ++ l] := by
  intro l
  induction l with
  | nil => intro acc _; simp [splitOnCharAux]
  | cons c cs ih =>
    intro acc h
    have hc : ¬c = sep := fun he => h (he ▸ List.mem_cons_self c cs)
    have hcs : sep ∉ cs := fun hm => h (List.mem_cons_of_mem c hm)
    simp only [splitOnCharAux, if_neg hc, ih (c :: acc) hcs]
    simp

lemma load_prompts_some (content : List Char) :
    _load_prompts (some content) =
      match requiredPrompts.find? (fun r => !dictContains (parsePrompts content) r) with
      | some r => Except.error (LoadError.missingPrompt r)
      | none => Except.ok (parsePrompts content) := rfl

/-- **C6.**  Prompt-store parsing: `"[A]x[B]y"` yields `{A: x, B: y}`;
for duplicate section names the last occurrence wins (`"[A]x[A]y"`
yields `{A: y}`); a section with no closing bracket is discarded without
error (both concretely and in general); text with no `'['` yields an
empty store, on which `_load_prompts` then fails required-key validation
with the first required name. -/
theorem prompt_parsing_spec :
    parsePrompts (str "[A]x[B]y") = [(str "A", str "x"), (str "B", str "y")] ∧
    parsePrompts (str "[A]x[A]y") = [(str "A", str "y")] ∧
    parsePrompts (str "[A]x[B") = [(str "A", str "x")] ∧
    (∀ (prompts : List (List Char × List Char)) (sec : List Char),
      ']' ∉ sec → insertSection prompts sec = prompts) ∧
    (∀ content : List Char, '[' ∉ content →
      parsePrompts content = [] ∧
      _load_prompts (some content) =
        Except.error (LoadError.missingPrompt (str "CHUNK_ANALYSIS_PROMPT"))) := by
  refine ⟨by decide, by decide, by decide, ?_, ?_⟩
  · intro prompts sec hsec
    unfold insertSection
    rw [splitOnce_none_of_not_mem sec hsec]
  · intro content hcontent
    have hparse : parsePrompts content = [] := by
      unfold parsePrompts splitOnChar
      rw [splitOnCharAux_no_sep '[' content [] hcontent]
      rfl
    refine ⟨hparse, ?_⟩
    rw [load_prompts_some, hparse]
    rfl

/-- Witness for `prompt_parsing_spec`, instantiating its universally
quantified parts at concrete inputs. -/
theorem prompt_parsing_spec_witness :
    insertSection [(str "A", str "x")] (str "B no closing bracket") = [(str "A", str "x")] ∧
    (parsePrompts (str "no sections here") = [] ∧
      _load_prompts (some (str "no sections here")) =
        Except.error (LoadError.missingPrompt (str "CHUNK_ANALYSIS_PROMPT"))) :=
  ⟨prompt_parsing_spec.2.2.2.1 [(str "A", str "x")] (str "B no closing bracket") (by decide),
   prompt_parsing_spec.2.2.2.2 (str "no sections here") (by decide)⟩

/-- **C7, counterexample.**  The claim says prompt loading must fail when
a required template maps to the empty string; but on
`"[CHUNK_ANALYSIS_PROMPT][SUMMARY_COMBINATION_PROMPT]y"` the parsed
store maps `CHUNK_ANALYSIS_PROMPT` to the empty string and
`_load_prompts` still returns it successfully. -/
theorem load_prompts_empty_value_counterexample :
    _load_prompts (some (str "[CHUNK_ANALYSIS_PROMPT][SUMMARY_COMBINATION_PROMPT]y")) =
      Except.ok [(str "CHUNK_ANALYSIS_PROMPT", []),
        (str "SUMMARY_COMBINATION_PROMPT", str "y")] ∧
    dictGet (parsePrompts (str "[CHUNK_ANALYSIS_PROMPT][SUMMARY_COMBINATION_PROMPT]y"))
      (str "CHUNK_ANALYSIS_PROMPT") = some [] := ⟨by rfl, by decide⟩

/-- **C7, amended.**  Prompt loading fails if and only if the file does
not exist or a required template name is missing from the parsed store
after parsing; an empty-string value for a required name passes
validation (emptiness is only checked later, at use time).  On success
the parsed store itself is returned. -/
theorem load_prompts_fail_iff (file : Option (List Char)) :
    ((∃ e, _load_prompts file = Except.error e) ↔
      (file = none ∨ ∃ content, file = some content ∧
        ∃ r ∈ requiredPrompts, dictContains (parsePrompts content) r = false)) ∧
    (∀ content, file = some content →
      (∀ r ∈ requiredPrompts, dictContains (parsePrompts content) r = true) →
      _load_prompts file = Except.ok (parsePrompts content)) := by
  cases file with
  | none =>
    refine ⟨?_, ?_⟩
    · constructor
      · intro _; exact Or.inl rfl
      · intro _; exact ⟨LoadError.fileNotFound, rfl⟩
    · intro content hc; cases hc
  | some c =>
    refine ⟨?_, ?_⟩
    · rcases hf : requiredPrompts.find? (fun r => !dictContains (parsePrompts c) r)
        with _ | r
      · constructor
        · intro ⟨e, he⟩
          rw [load_prompts_some, hf] at he
          cases he
        · intro h
          rcases h with h | ⟨content, hc, r, hr, hcont⟩
          · cases h
          · cases hc
            have := List.find?_eq_none.mp hf r hr
            simp only [Bool.not_eq_true', Bool.not_eq_false] at this
            rw [this] at hcont
            cases hcont
      · constructor
        · intro _
          refine Or.inr ⟨c, rfl, r, List.mem_of_find?_eq_some hf, ?_⟩
          have := List.find?_some hf
          simpa using this
        · intro _
          exact ⟨LoadError.missingPrompt r, by rw [load_prompts_some, hf]⟩
    · intro content hc hall
      cases hc
      rw [load_prompts_some]
      have hnone : requiredPrompts.find? (fun r => !dictContains (parsePrompts c) r) = none := by
        rw [List.find?_eq_none]
        intro r hr
        simp [hall r hr]
      rw [hnone]

/-- Witness for `load_prompts_fail_iff`: a valid two-section prompt file
loads successfully, and a file with no sections is reported as failing. -/
theorem load_prompts_fail_iff_witness :
    _load_prompts (some (str "[CHUNK_ANALYSIS_PROMPT]a[SUMMARY_COMBINATION_PROMPT]b")) =
      Except.ok (parsePrompts (str "[CHUNK_ANALYSIS_PROMPT]a[SUMMARY_COMBINATION_PROMPT]b")) ∧
    (∃ e, _load_prompts (some (str "x")) = Except.error e) :=
  ⟨(load_prompts_fail_iff
      (some (str "[CHUNK_ANALYSIS_PROMPT]a[SUMMARY_COMBINATION_PROMPT]b"))).2 _ rfl (by decide),
   ((load_prompts_fail_iff (some (str "x"))).1).mpr
     (Or.inr ⟨str "x", rfl, str "CHUNK_ANALYSIS_PROMPT", by decide, by decide⟩)⟩

/-! ### Company-name derivation: `_extract_company_name_from_url` -/

/-- A model of `urllib.parse.urlparse(url).netloc` for the absolute URLs
this program consumes: the text after the first `"://"`-style scheme
separator up to the next `'/'`, `'?'` or `'#'`; empty when the part
after the scheme colon does not start with `"//"` or there is no colon. -/
def urlNetloc (url : List Char) : List Char :=
  match splitOnce ':' url with
  | none => []
  | some (_, rest) =>
    if (str "//").isPrefixOf rest then
      (rest.drop 2).takeWhile (fun c => !(c = '/' || c = '?' || c = '#'))
    else []

/-- `re.sub(r'^(www\.|assets\.|assets-dam\.)', '', domain)`: the pattern is
anchored, so at most one leading prefix is removed, trying the
alternatives in order. -/
def stripDomainPrefix (d : List Char) : List Char :=
  if (str "www.").isPrefixOf d then d.drop 4
  else if (str "assets.").isPrefixOf d then d.drop 7
  else if (str "assets-dam.").isPrefixOf d then d.drop 11
  else d

/-- The hard-coded company slug table, in source order. -/
def company_mapping : List (List Char × List Char) :=
  [(str "novartis", str "novartis"), (str "gsk", str "gsk"),
   (str "takeda", str "takeda"), (str "pfizer", str "pfizer"),
   (str "roche", str "roche"), (str "jnj", str "johnson_and_johnson"),
   (str "merck", str "merck"), (str "abbvie", str "abbvie"),
   (str "amgen", str "amgen"), (str "gilead", str "gilead")]

/-- Python's `key in company_name` substring test. -/
def isSubstring (pat : List Char) : List Char → Bool
  | [] => pat.isEmpty
  | c :: cs => pat.isPrefixOf (c :: cs) || isSubstring pat cs

/-- `re.sub(r'[^a-zA-Z0-9]', '_', s)`. -/
def sanitize (l : List Char) : List Char :=
  l.map (fun c => if c.isAlphanum then c else '_')

/-- `_extract_company_name_from_url`: lowercase the URL's host, strip one
known prefix, take the first DNS label, look it up in the slug table by
substring, else sanitize and lowercase.  The Python helper catches its
own exceptions and returns `None`; in this pure model no step can fail,
so the fallback is reaching an empty name, which the caller treats the
same as `None` (both are falsy). -/
def _extract_company_name_from_url (url : List Char) : List Char :=
  let domain := (urlNetloc url).map Char.toLower
  let domain := stripDomainPrefix domain
  let domain_parts := splitOnChar '.' domain
  if 2 ≤ domain_parts.length then
    let company_name := domain_parts.headD []
    match company_mapping.find? (fun kv => isSubstring kv.1 company_name) with
    | some kv => kv.2
    | none => (sanitize company_name).map Char.toLower
  else
    (sanitize ((splitOnChar '.' domain).headD [])).map Char.toLower

/-- The filename chosen by `analyze_single_report`: the company slug when
one was derived (non-falsy), else the 1-based-index fallback. -/
def outputFilename (url : List Char) (url_index : Nat) : List Char :=
  let company_name := _extract_company_name_from_url url
  if !company_name.isEmpty then company_name ++ str "_analysis.txt"
  else str "report_" ++ Nat.toDigits 10 url_index ++ str "_analysis.txt"

/-- **C8.**  Company-name derivation maps the three spec URLs to
`pfizer`, `novartis` and `example`, and a URL whose host is empty yields
no usable name, making the pipeline fall back to
`report_{index}_analysis.txt` with the report's 1-based index. -/
theorem company_name_spec :
    _extract_company_name_from_url (str "https://www.pfizer.com/report.pdf") = str "pfizer" ∧
    _extract_company_name_from_url (str "https://assets-dam.novartis.com/x.pdf") =
      str "novartis" ∧
    _extract_company_name_from_url (str "https://example.com/x.pdf") = str "example" ∧
    outputFilename (str "https://www.pfizer.com/report.pdf") 1 = str "pfizer_analysis.txt" ∧
    _extract_company_name_from_url (str "http:///x.pdf") = [] ∧
    outputFilename (str "http:///x.pdf") 4 = str "report_4_analysis.txt" := by
  refine ⟨by decide, by decide, by decide, by decide, by decide, by decide⟩

/-! ### The LLM wrappers `analyze_chunk` and `combine_summaries`

The OpenAI chat-completion call is an external collaborator, modelled as
an oracle from requests to `Except error completion`.  A raised Python
exception is an `Except.error` of the embedding; the `try/except` blocks
of the source catch the LLM error and return (`Except.ok`) the
error-marker string instead. -/

/-- One chat-completion request: model, system message, user message,
temperature (in tenths, to stay within the rationals the source uses:
`0.3` is `3`, `0.2` is `2`), and the output-token cap. -/
structure LLMRequest where
  model : List Char
  system : List Char
  user : List Char
  temperatureTenths : Nat
  max_tokens : Nat
deriving DecidableEq

/-- Fueled worker for `replaceAll`. -/
def replaceAllGo (pat repl : List Char) : Nat → List Char → List Char
  | 0, l => l
  | _ + 1, [] => []
  | fuel + 1, c :: cs =>
    if pat.isPrefixOf (c :: cs) then
      repl ++ replaceAllGo pat repl fuel ((c :: cs).drop pat.length)
    else c :: replaceAllGo pat repl fuel cs

/-- Replace every (non-overlapping, leftmost) occurrence of `pat` by
`repl`; the replacement text is not rescanned, as in `str.format`. -/
def replaceAll (pat repl l : List Char) : List Char := replaceAllGo pat repl l.length l

/-- `prompt_template.format(chunk=…, chunk_number=…, total_chunks=…)`,
modelled as literal replacement of the three placeholders. -/
def formatChunkPrompt (tmpl chunk : List Char) (chunk_number total_chunks : Nat) : List Char :=
  replaceAll (str "{chunk}") chunk
    (replaceAll (str "{chunk_number}") (Nat.toDigits 10 chunk_number)
      (replaceAll (str "{total_chunks}") (Nat.toDigits 10 total_chunks) tmpl))

/-- Python's `'\n\n'.join`. -/
def joinBlank : List (List Char) → List Char
  | [] => []
  | [s] => s
  | s :: ss => s ++ '\n' :: '\n' :: joinBlank ss

/-- The request `analyze_chunk` sends: fixed system role, temperature
0.3, 1000-token cap. -/
def chunkRequest (model prompt : List Char) : LLMRequest :=
  ⟨model, str "You are a financial analyst expert at summarizing business reports.",
   prompt, 3, 1000⟩

/-- The request `combine_summaries` sends: fixed system role,
temperature 0.2, 2000-token cap. -/
def combineRequest (model prompt : List Char) : LLMRequest :=
  ⟨model, str "You are a senior financial analyst creating executive summaries.",
   prompt, 2, 2000⟩

/-- `analyze_chunk`: raises (`Except.error`) when the chunk-analysis
template is missing or empty; otherwise formats the prompt and calls the
LLM, converting any LLM failure into a returned error-marker string. -/
def analyze_chunk (prompts : List (List Char × List Char))
    (llm : LLMRequest → Except (List Char) (List Char)) (model chunk : List Char)
    (chunk_number total_chunks : Nat) : Except (List Char) (List Char) :=
  let prompt_template := (dictGet prompts (str "CHUNK_ANALYSIS_PROMPT")).getD []
  if prompt_template.isEmpty then
    Except.error (str "CHUNK_ANALYSIS_PROMPT not found in prompts file")
  else
    let prompt := formatChunkPrompt prompt_template chunk chunk_number total_chunks
    match llm (chunkRequest model prompt) with
    | Except.ok summary => Except.ok summary
    | Except.error e =>
      Except.ok (str "Error analyzing chunk " ++ Nat.toDigits 10 chunk_number ++
        str ": " ++ e)

/-- `combine_summaries`: joins the chunk summaries with blank lines,
substitutes into the combination template, and calls the LLM, converting
any LLM failure into a returned error-marker string. -/
def combine_summaries (prompts : List (List Char × List Char))
    (llm : LLMRequest → Except (List Char) (List Char)) (model : List Char)
    (chunk_summaries : List (List Char)) : Except (List Char) (List Char) :=
  let combined_text := joinBlank chunk_summaries
  let prompt_template := (dictGet prompts (str "SUMMARY_COMBINATION_PROMPT")).getD []
  if prompt_template.isEmpty then
    Except.error (str "SUMMARY_COMBINATION_PROMPT not found in prompts file")
  else
    let final_prompt := replaceAll (str "{combined_text}") combined_text prompt_template
    match llm (combineRequest model final_prompt) with
    | Except.ok s => Except.ok s
    | Except.error e => Except.ok (str "Error generating final summary: " ++ e)

/-- **C2.**  When the relevant prompt template is present and non-empty
and the LLM call fails with any error, `analyze_chunk` does not
propagate the failure: it returns
`"Error analyzing chunk {chunk_number}: {message}"` as the chunk's
summary; likewise `combine_summaries` returns
`"Error generating final summary: {message}"` instead of raising. -/
theorem llm_failure_nonpropagation (prompts : List (List Char × List Char))
    (llm : LLMRequest → Except (List Char) (List Char)) (model chunk : List Char)
    (chunk_number total_chunks : Nat) (chunk_summaries : List (List Char)) :
    ((dictGet prompts (str "CHUNK_ANALYSIS_PROMPT")).getD [] ≠ [] →
      ∀ e, llm (chunkRequest model (formatChunkPrompt
          ((dictGet prompts (str "CHUNK_ANALYSIS_PROMPT")).getD [])
          chunk chunk_number total_chunks)) = Except.error e →
        analyze_chunk prompts llm model chunk chunk_number total_chunks =
          Except.ok (str "Error analyzing chunk " ++ Nat.toDigits 10 chunk_number ++
            str ": " ++ e)) ∧
    ((dictGet prompts (str "SUMMARY_COMBINATION_PROMPT")).getD [] ≠ [] →
      ∀ e, llm (combineRequest model (replaceAll (str "{combined_text}")
          (joinBlank chunk_summaries)
          ((dictGet prompts (str "SUMMARY_COMBINATION_PROMPT")).getD []))) =
            Except.error e →
        combine_summaries prompts llm model chunk_summaries =
          Except.ok (str "Error generating final summary: " ++ e)) := by
  constructor
  · intro hne e hllm
    unfold analyze_chunk
    rw [if_neg (by simpa using hne)]
    simp only [hllm]
  · intro hne e hllm
    unfold combine_summaries
    rw [if_neg (by simpa using hne)]
    simp only [hllm]

/-- Witness for `llm_failure_nonpropagation`: a concrete prompt store and
an always-failing LLM oracle. -/
theorem llm_failure_nonpropagation_witness :
    analyze_chunk [(str "CHUNK_ANALYSIS_PROMPT", str "T"),
        (str "SUMMARY_COMBINATION_PROMPT", str "U")]
      (fun _ => Except.error (str "boom")) (str "m") (str "c") 1 1 =
      Except.ok (str "Error analyzing chunk " ++ Nat.toDigits 10 1 ++
        str ": " ++ str "boom") ∧
    combine_summaries [(str "CHUNK_ANALYSIS_PROMPT", str "T"),
        (str "SUMMARY_COMBINATION_PROMPT", str "U")]
      (fun _ => Except.error (str "boom")) (str "m") [str "s"] =
      Except.ok (str "Error generating final summary: " ++ str "boom") :=
  ⟨(llm_failure_nonpropagation [(str "CHUNK_ANALYSIS_PROMPT", str "T"),
        (str "SUMMARY_COMBINATION_PROMPT", str "U")]
      (fun _ => Except.error (str "boom")) (str "m") (str "c") 1 1 [str "s"]).1
      (by decide) (str "boom") rfl,
   (llm_failure_nonpropagation [(str "CHUNK_ANALYSIS_PROMPT", str "T"),
        (str "SUMMARY_COMBINATION_PROMPT", str "U")]
      (fun _ => Except.error (str "boom")) (str "m") (str "c") 1 1 [str "s"]).2
      (by decide) (str "boom") rfl⟩

/-! ### The per-report pipeline `analyze_single_report`

The filesystem is an explicit state: the live temporary files, the
written output files (a path -> content dict, since writing overwrites),
and a call counter (`clock`) that advances on every download, so that
the download oracle can answer differently on successive calls, as a
real network does. -/

/-- Filesystem state: download-call counter, live temp files, and the
output files written so far (path -> content). -/
structure FS where
  clock : Nat
  temps : List (List Char)
  outputs : List (List Char × List Char)
deriving DecidableEq

/-- The external collaborators of one analyzer run: the HTTP download
(answering per call number), the PDF per-page text extractor, the LLM
service, and whether the output-directory creation and file write
succeed. -/
structure Env where
  download : Nat → List Char → Except (List Char) (List Char)
  extractPages : List Char → Except (List Char) (List (List Char))
  llm : LLMRequest → Except (List Char) (List Char)
  writeOk : Bool

/-- `download_pdf`: ask the network oracle; on success the returned temp
path becomes a live file on disk.  On failure the exception propagates
to the caller and no temp file was created. -/
def download_pdf (env : Env) (url : List Char) (fs : FS) :
    Except (List Char) (List Char) × FS :=
  match env.download fs.clock url with
  | Except.error e => (Except.error e, ⟨fs.clock + 1, fs.temps, fs.outputs⟩)
  | Except.ok path => (Except.ok path, ⟨fs.clock + 1, fs.temps ++ [path], fs.outputs⟩)

/-- `extract_text_from_pdf`: per-page extraction via the collaborator,
keeping only truthy (non-empty) page texts, cleaning each with
`_clean_text`, and joining the pages with blank lines. -/
def extract_text_from_pdf (env : Env) (pdf_path : List Char) :
    Except (List Char) (List Char) :=
  match env.extractPages pdf_path with
  | Except.error e => Except.error e
  | Except.ok pages =>
    Except.ok (joinBlank ((pages.filter (fun p => !p.isEmpty)).map _clean_text))

/-- The summarization loop of `analyze_single_report`: each chunk is
passed to `analyze_chunk` with its 1-based index and the total count;
a raised exception aborts the loop. -/
def summarizeChunksGo (prompts : List (List Char × List Char))
    (llm : LLMRequest → Except (List Char) (List Char)) (model : List Char)
    (total : Nat) : Nat → List (List Char) → Except (List Char) (List (List Char))
  | _, [] => Except.ok []
  | i, c :: cs =>
    match analyze_chunk prompts llm model c i total with
    | Except.error e => Except.error e
    | Except.ok s =>
      match summarizeChunksGo prompts llm model total (i + 1) cs with
      | Except.error e => Except.error e
      | Except.ok rest => Except.ok (s :: rest)

/-- The chunk-summaries accumulation of `analyze_single_report`. -/
def summarizeChunks (prompts : List (List Char × List Char))
    (llm : LLMRequest → Except (List Char) (List Char)) (model : List Char)
    (chunks : List (List Char)) : Except (List Char) (List (List Char)) :=
  summarizeChunksGo prompts llm model chunks.length 1 chunks

/-- The fixed header block written before the combined summary. -/
def reportHeader (pdf_url : List Char) : List Char :=
  str "Financial Report Analysis\n" ++ str "Source: " ++ pdf_url ++ str "\n" ++
  List.replicate 80 '=' ++ str "\n\n"

/-- The body of `analyze_single_report`'s `try` block after a successful
download: extract, validate, chunk, summarize, combine, and write.  Any
raised step yields `false` (the `except` clause); only the write touches
the filesystem, and the temp file is never touched here. -/
def reportBody (prompts : List (List Char × List Char)) (env : Env)
    (model : List Char) (chunk_size : Nat) (pdf_url output_dir : List Char)
    (url_index : Nat) (pdf_path : List Char) (fs : FS) : Bool × FS :=
  match extract_text_from_pdf env pdf_path with
  | Except.error _ => (false, fs)
  | Except.ok text =>
    if (stripWS text).isEmpty then (false, fs)
    else
      let chunks := chunk_text chunk_size text
      if chunks.isEmpty then (false, fs)
      else
        match summarizeChunks prompts env.llm model chunks with
        | Except.error _ => (false, fs)
        | Except.ok chunk_summaries =>
          match combine_summaries prompts env.llm model chunk_summaries with
          | Except.error _ => (false, fs)
          | Except.ok final_summary =>
            if env.writeOk then
              (true, ⟨fs.clock, fs.temps,
                dictInsert fs.outputs (output_dir ++ '/' :: outputFilename pdf_url url_index)
                  (reportHeader pdf_url ++ final_summary)⟩)
            else (false, fs)

/-- `analyze_single_report`: download, run the body, and in the
`finally` clause delete the temp file (when one was created) on every
exit path. -/
def analyze_single_report (prompts : List (List Char × List Char)) (env : Env)
    (model : List Char) (chunk_size : Nat) (pdf_url output_dir : List Char)
    (url_index : Nat) (fs : FS) : Bool × FS :=
  match download_pdf env pdf_url fs with
  | (Except.error _, fs1) => (false, fs1)
  | (Except.ok pdf_path, fs1) =>
    let res := reportBody prompts env model chunk_size pdf_url output_dir url_index pdf_path fs1
    (res.1, ⟨res.2.clock, res.2.temps.filter (fun p => !(p == pdf_path)), res.2.outputs⟩)

/-! ### The batch orchestrator `analyze_all_reports` -/

/-- Failure modes of the URL-list reader. -/
inductive UrlError where
  | fileNotFound : UrlError
  | noValidUrls : UrlError
deriving DecidableEq

/-- `_read_urls_from_file`: split the file into lines, strip each, drop
blank and `#` lines, keep only lines starting with `http` (others are
logged and skipped); zero valid URLs is a fatal error. -/
def _read_urls_from_file (file : Option (List Char)) :
    Except UrlError (List (List Char)) :=
  match file with
  | none => Except.error UrlError.fileNotFound
  | some content =>
    let urls := ((splitOnChar '\n' content).map stripWS).filter
      (fun line => !line.isEmpty && !((str "#").isPrefixOf line) &&
        (str "http").isPrefixOf line)
    if urls.isEmpty then Except.error UrlError.noValidUrls
    else Except.ok urls

/-- The batch loop: run the pipeline for each URL in order with its
1-based index, record each result in the results dict, and continue
regardless of the outcome. -/
def analyzeAllGo (prompts : List (List Char × List Char)) (env : Env)
    (model : List Char) (chunk_size : Nat) (output_dir : List Char) :
    List (List Char) → Nat → List (List Char × Bool) → FS →
      List (List Char × Bool) × FS
  | [], _, results, fs => (results, fs)
  | url :: urls, i, results, fs =>
    let r := analyze_single_report prompts env model chunk_size url output_dir i fs
    analyzeAllGo prompts env model chunk_size output_dir urls (i + 1)
      (dictInsert results url r.1) r.2

/-- `analyze_all_reports`: read the URL file and run the batch loop from
index 1 with an empty results dict. -/
def analyze_all_reports (prompts : List (List Char × List Char)) (env : Env)
    (model : List Char) (chunk_size : Nat) (url_file : Option (List Char))
    (output_dir : List Char) (fs : FS) :
    Except UrlError (List (List Char × Bool) × FS) :=
  match _read_urls_from_file url_file with
  | Except.error e => Except.error e
  | Except.ok urls =>
    Except.ok (analyzeAllGo prompts env model chunk_size output_dir urls 1 [] fs)

/-! ### Dict lemmas -/

lemma dictGet_dictInsert_self {β : Type} :
    ∀ (d : List (List Char × β)) (k : List Char) (v : β),
      dictGet (dictInsert d k v) k = some v := by
  intro d
  induction d with
  | nil => intro k v; simp [dictGet, dictInsert, dictContains]
  | cons p d ih =>
    intro k v
    by_cases hpk : p.1 == k
    · have hcont : dictContains (p :: d) k = true := by simp [dictContains, hpk]
      simp only [dictInsert, hcont, if_true, List.map_cons, hpk, if_pos]
      simp [dictGet]
    · have hpk' : (p.1 == k) = false := by simpa using hpk
      have hcont : dictContains (p :: d) k = dictContains d k := by
        simp [dictContains, hpk']
      by_cases hcd : dictContains d k
      · have h1 : dictContains (p :: d) k = true := by rw [hcont, hcd]
        simp only [dictInsert, h1, if_true, List.map_cons, hpk', Bool.false_eq_true, if_false]
        have ihk := ih k v
        simp only [dictInsert, hcd, if_true] at ihk
        unfold dictGet at ihk ⊢
        rw [List.find?_cons_of_neg _ (by simp [hpk'])]
        exact ihk
      · have hcd' : dictContains d k = false := by simpa using hcd
        have h1 : dictContains (p :: d) k = false := by rw [hcont, hcd']
        simp only [dictInsert, h1, Bool.false_eq_true, if_false, List.cons_append]
        have ihk := ih k v
        simp only [dictInsert, hcd', Bool.false_eq_true, if_false] at ihk
        unfold dictGet at ihk ⊢
        rw [List.find?_cons_of_neg _ (by simp [hpk'])]
        exact ihk

lemma dictContains_dictInsert_self {β : Type} (d : List (List Char × β))
    (k : List Char) (v : β) : dictContains (dictInsert d k v) k = true := by
  have h := dictGet_dictInsert_self d k v
  unfold dictGet at h
  cases hf : (dictInsert d k v).find? (fun q => q.1 == k) with
  | none => rw [hf] at h; cases h
  | some q =>
    unfold dictContains
    rw [List.any_eq_true]
    have hq := List.find?_some hf
    exact ⟨q, List.mem_of_find?_eq_some hf, hq⟩

lemma dictContains_dictInsert_mono {β : Type} (d : List (List Char × β))
    (k u : List Char) (v : β) (h : dictContains d u = true) :
    dictContains (dictInsert d k v) u = true := by
  unfold dictContains at h ⊢
  rw [List.any_eq_true] at h ⊢
  obtain ⟨p, hp, hpu⟩ := h
  unfold dictInsert
  by_cases hc : dictContains d k
  · rw [if_pos hc]
    by_cases hpk : p.1 == k
    · refine ⟨(k, v), List.mem_map.mpr ⟨p, hp, by simp [hpk]⟩, ?_⟩
      have h1 : p.1 = k := by simpa using hpk
      have h2 : p.1 = u := by simpa using hpu
      simp [← h1, h2]
    · have hpk' : (p.1 == k) = false := by simpa using hpk
      exact ⟨p, List.mem_map.mpr ⟨p, hp, by simp [hpk']⟩, hpu⟩
  · rw [if_neg hc]
    exact ⟨p, List.mem_append_left _ hp, hpu⟩

/-- The keys of a dict are unchanged by an overwriting insert and get
`k` appended by a fresh insert; in particular key distinctness is
preserved. -/
lemma dictInsert_keys_nodup {β : Type} (d : List (List Char × β)) (k : List Char)
    (v : β) (h : (d.map Prod.fst).Nodup) :
    ((dictInsert d k v).map Prod.fst).Nodup := by
  unfold dictInsert
  by_cases hc : dictContains d k
  · rw [if_pos hc, List.map_map]
    have hkeys : (d.map (Prod.fst ∘ fun p => if p.1 == k then (k, v) else p)) =
        d.map Prod.fst := by
      apply List.map_congr_left
      intro p _
      show (if p.1 == k then (k, v) else p).1 = p.1
      by_cases hpk : p.1 == k
      · rw [if_pos hpk]
        exact (show p.1 = k by simpa using hpk).symm
      · rw [if_neg hpk]
    rw [hkeys]
    exact h
  · rw [if_neg hc, List.map_append]
    rw [List.nodup_append]
    refine ⟨h, by simp, ?_⟩
    intro a ha hb
    simp only [List.map_cons, List.map_nil, List.mem_singleton] at hb
    subst hb
    obtain ⟨p, hp, hpa⟩ := List.mem_map.mp ha
    apply hc
    unfold dictContains
    rw [List.any_eq_true]
    exact ⟨p, hp, by simp [hpa]⟩

/-! ### Helper lemmas: the LLM wrappers never raise when their templates
are non-empty -/

lemma analyze_chunk_ok (prompts : List (List Char × List Char))
    (llm : LLMRequest → Except (List Char) (List Char)) (model chunk : List Char)
    (i n : Nat) (h : (dictGet prompts (str "CHUNK_ANALYSIS_PROMPT")).getD [] ≠ []) :
    ∃ s, analyze_chunk prompts llm model chunk i n = Except.ok s := by
  cases h2 : llm (chunkRequest model (formatChunkPrompt
      ((dictGet prompts (str "CHUNK_ANALYSIS_PROMPT")).getD []) chunk i n)) with
  | error e =>
    refine ⟨str "Error analyzing chunk " ++ Nat.toDigits 10 i ++ str ": " ++ e, ?_⟩
    unfold analyze_chunk
    rw [if_neg (by simpa using h)]
    simp only [h2]
  | ok s =>
    refine ⟨s, ?_⟩
    unfold analyze_chunk
    rw [if_neg (by simpa using h)]
    simp only [h2]

lemma summarizeChunksGo_ok (prompts : List (List Char × List Char))
    (llm : LLMRequest → Except (List Char) (List Char)) (model : List Char)
    (total : Nat) (h : (dictGet prompts (str "CHUNK_ANALYSIS_PROMPT")).getD [] ≠ []) :
    ∀ (chunks : List (List Char)) (i : Nat),
      ∃ ss, summarizeChunksGo prompts llm model total i chunks = Except.ok ss := by
  intro chunks
  induction chunks with
  | nil => intro i; exact ⟨[], rfl⟩
  | cons c cs ih =>
    intro i
    obtain ⟨s, hs⟩ := analyze_chunk_ok prompts llm model c i total h
    obtain ⟨ss, hss⟩ := ih (i + 1)
    exact ⟨s :: ss, by simp only [summarizeChunksGo, hs, hss]⟩

lemma combine_summaries_fail (prompts : List (List Char × List Char))
    (llm : LLMRequest → Except (List Char) (List Char)) (model : List Char)
    (chunk_summaries : List (List Char))
    (h : (dictGet prompts (str "SUMMARY_COMBINATION_PROMPT")).getD [] ≠ [])
    (hllm : ∀ r, ∃ e, llm r = Except.error e) :
    ∃ e, combine_summaries prompts llm model chunk_summaries =
      Except.ok (str "Error generating final summary: " ++ e) := by
  obtain ⟨e, he⟩ := hllm (combineRequest model (replaceAll (str "{combined_text}")
    (joinBlank chunk_summaries) ((dictGet prompts (str "SUMMARY_COMBINATION_PROMPT")).getD [])))
  refine ⟨e, ?_⟩
  unfold combine_summaries
  rw [if_neg (by simpa using h)]
  simp only [he]

/-- The body of the `try` block never touches the temp files or the call
counter: only the final write modifies the filesystem, and it only adds
an output file. -/
lemma reportBody_frame (prompts : List (List Char × List Char)) (env : Env)
    (model : List Char) (chunk_size : Nat) (pdf_url output_dir : List Char)
    (url_index : Nat) (pdf_path : List Char) (fs : FS) :
    (reportBody prompts env model chunk_size pdf_url output_dir
        url_index pdf_path fs).2.temps = fs.temps ∧
    (reportBody prompts env model chunk_size pdf_url output_dir
        url_index pdf_path fs).2.clock = fs.clock := by
  unfold reportBody
  rcases extract_text_from_pdf env pdf_path with e | text
  · exact ⟨rfl, rfl⟩
  · simp only []
    by_cases h1 : (stripWS text).isEmpty
    · rw [if_pos h1]; exact ⟨rfl, rfl⟩
    · rw [if_neg h1]
      by_cases h2 : (chunk_text chunk_size text).isEmpty
      · rw [if_pos h2]; exact ⟨rfl, rfl⟩
      · rw [if_neg h2]
        rcases summarizeChunks prompts env.llm model (chunk_text chunk_size text)
          with e | chunk_summaries
        · exact ⟨rfl, rfl⟩
        · simp only []
          rcases combine_summaries prompts env.llm model chunk_summaries
            with e | final_summary
          · exact ⟨rfl, rfl⟩
          · simp only []
            by_cases h3 : env.writeOk
            · rw [if_pos h3]; exact ⟨rfl, rfl⟩
            · rw [if_neg h3]; exact ⟨rfl, rfl⟩

/-- **C4.**  If the download fails, `analyze_single_report` returns
`false` and writes no output file (and the filesystem's temp files are
untouched); and on every exit path, whatever the other collaborators do,
a temp file freshly created by a successful download is deleted again
before the call returns, so no temp file leaks. -/
theorem download_failure_and_temp_cleanup (prompts : List (List Char × List Char))
    (env : Env) (model : List Char) (chunk_size : Nat) (pdf_url output_dir : List Char)
    (url_index : Nat) (fs : FS) :
    (∀ e, env.download fs.clock pdf_url = Except.error e →
      (analyze_single_report prompts env model chunk_size pdf_url output_dir
          url_index fs).1 = false ∧
      (analyze_single_report prompts env model chunk_size pdf_url output_dir
          url_index fs).2.outputs = fs.outputs ∧
      (analyze_single_report prompts env model chunk_size pdf_url output_dir
          url_index fs).2.temps = fs.temps) ∧
    (∀ pdf_path, env.download fs.clock pdf_url = Except.ok pdf_path →
      pdf_path ∉ fs.temps →
      (analyze_single_report prompts env model chunk_size pdf_url output_dir
          url_index fs).2.temps = fs.temps ∧
      pdf_path ∉ (analyze_single_report prompts env model chunk_size pdf_url output_dir
          url_index fs).2.temps) := by
  constructor
  · intro e hdl
    unfold analyze_single_report download_pdf
    rw [hdl]
    exact ⟨rfl, rfl, rfl⟩
  · intro pdf_path hdl hfresh
    have hfr := reportBody_frame prompts env model chunk_size pdf_url output_dir
      url_index pdf_path ⟨fs.clock + 1, fs.temps ++ [pdf_path], fs.outputs⟩
    have htemps :
        (analyze_single_report prompts env model chunk_size pdf_url output_dir
          url_index fs).2.temps =
        (fs.temps ++ [pdf_path]).filter (fun p => !(p == pdf_path)) := by
      unfold analyze_single_report download_pdf
      rw [hdl]
      simp only []
      rw [hfr.1]
    have hfil : (fs.temps ++ [pdf_path]).filter (fun p => !(p == pdf_path)) = fs.temps := by
      rw [List.filter_append]
      have h1 : fs.temps.filter (fun p => !(p == pdf_path)) = fs.temps := by
        rw [List.filter_eq_self]
        intro a ha
        simp only [Bool.not_eq_true']
        rw [beq_eq_false_iff_ne]
        intro hap
        exact hfresh (hap ▸ ha)
      have h2 : ([pdf_path] : List (List Char)).filter (fun p => !(p == pdf_path)) = [] := by
        simp
      rw [h1, h2, List.append_nil]
    refine ⟨by rw [htemps, hfil], ?_⟩
    rw [htemps, hfil]
    exact hfresh

/-- Witness for `download_failure_and_temp_cleanup`: an environment
whose download always fails, and one whose download succeeds while
extraction fails. -/
theorem download_failure_and_temp_cleanup_witness :
    ((analyze_single_report [] ⟨fun _ _ => Except.error (str "404"),
        fun _ => Except.error (str "x"), fun _ => Except.error (str "x"), true⟩
        (str "m") 2 (str "http://a/b.pdf") (str "out") 1 ⟨0, [], []⟩).1 = false ∧
      (analyze_single_report [] ⟨fun _ _ => Except.error (str "404"),
        fun _ => Except.error (str "x"), fun _ => Except.error (str "x"), true⟩
        (str "m") 2 (str "http://a/b.pdf") (str "out") 1 ⟨0, [], []⟩).2.outputs = [] ∧
      (analyze_single_report [] ⟨fun _ _ => Except.error (str "404"),
        fun _ => Except.error (str "x"), fun _ => Except.error (str "x"), true⟩
        (str "m") 2 (str "http://a/b.pdf") (str "out") 1 ⟨0, [], []⟩).2.temps = []) ∧
    ((analyze_single_report [] ⟨fun _ _ => Except.ok (str "/tmp/t.pdf"),
        fun _ => Except.error (str "bad pdf"), fun _ => Except.error (str "x"), true⟩
        (str "m") 2 (str "http://a/b.pdf") (str "out") 1 ⟨0, [], []⟩).2.temps = [] ∧
      str "/tmp/t.pdf" ∉
        (analyze_single_report [] ⟨fun _ _ => Except.ok (str "/tmp/t.pdf"),
          fun _ => Except.error (str "bad pdf"), fun _ => Except.error (str "x"), true⟩
          (str "m") 2 (str "http://a/b.pdf") (str "out") 1 ⟨0, [], []⟩).2.temps) :=
  ⟨(download_failure_and_temp_cleanup [] ⟨fun _ _ => Except.error (str "404"),
      fun _ => Except.error (str "x"), fun _ => Except.error (str "x"), true⟩
      (str "m") 2 (str "http://a/b.pdf") (str "out") 1 ⟨0, [], []⟩).1
      (str "404") rfl,
   (download_failure_and_temp_cleanup [] ⟨fun _ _ => Except.ok (str "/tmp/t.pdf"),
      fun _ => Except.error (str "bad pdf"), fun _ => Except.error (str "x"), true⟩
      (str "m") 2 (str "http://a/b.pdf") (str "out") 1 ⟨0, [], []⟩).2
      (str "/tmp/t.pdf") rfl (by decide)⟩

/-- **C3.**  When download, extraction (with non-blank text), chunking
and the output write all succeed, `analyze_single_report` returns `true`
even when every LLM call fails, and the written output file's body is
the header followed by the literal error-marker string in place of a
real summary. -/
theorem llm_failure_still_success (prompts : List (List Char × List Char)) (env : Env)
    (model : List Char) (chunk_size : Nat) (pdf_url output_dir : List Char)
    (url_index : Nat) (fs : FS) (pdf_path text : List Char)
    (hdl : env.download fs.clock pdf_url = Except.ok pdf_path)
    (hex : extract_text_from_pdf env pdf_path = Except.ok text)
    (htext : (stripWS text).isEmpty = false)
    (hchunks : (chunk_text chunk_size text).isEmpty = false)
    (hchunkT : (dictGet prompts (str "CHUNK_ANALYSIS_PROMPT")).getD [] ≠ [])
    (hcombT : (dictGet prompts (str "SUMMARY_COMBINATION_PROMPT")).getD [] ≠ [])
    (hllm : ∀ r, ∃ e, env.llm r = Except.error e)
    (hwrite : env.writeOk = true) :
    (analyze_single_report prompts env model chunk_size pdf_url output_dir
        url_index fs).1 = true ∧
    ∃ e, dictGet (analyze_single_report prompts env model chunk_size pdf_url output_dir
        url_index fs).2.outputs
        (output_dir ++ '/' :: outputFilename pdf_url url_index) =
      some (reportHeader pdf_url ++ (str "Error generating final summary: " ++ e)) := by
  obtain ⟨ss, hss⟩ := summarizeChunksGo_ok prompts env.llm model
    (chunk_text chunk_size text).length hchunkT (chunk_text chunk_size text) 1
  obtain ⟨e, hcomb⟩ := combine_summaries_fail prompts env.llm model ss hcombT hllm
  have hss2 : summarizeChunks prompts env.llm model (chunk_text chunk_size text) =
      Except.ok ss := hss
  have hbody : ∀ fs1 : FS,
      reportBody prompts env model chunk_size pdf_url output_dir url_index pdf_path fs1 =
      (true, ⟨fs1.clock, fs1.temps, dictInsert fs1.outputs
        (output_dir ++ '/' :: outputFilename pdf_url url_index)
        (reportHeader pdf_url ++ (str "Error generating final summary: " ++ e))⟩) := by
    intro fs1
    unfold reportBody
    rw [hex]
    simp only []
    rw [if_neg (by simp [htext])]
    rw [if_neg (by simp [hchunks])]
    simp only [hss2, hcomb, hwrite, if_true]
  have hrun : analyze_single_report prompts env model chunk_size pdf_url output_dir
      url_index fs =
      ((true : Bool), ⟨fs.clock + 1,
        (fs.temps ++ [pdf_path]).filter (fun p => !(p == pdf_path)),
        dictInsert fs.outputs
          (output_dir ++ '/' :: outputFilename pdf_url url_index)
          (reportHeader pdf_url ++ (str "Error generating final summary: " ++ e))⟩) := by
    unfold analyze_single_report download_pdf
    rw [hdl]
    simp only [hbody ⟨fs.clock + 1, fs.temps ++ [pdf_path], fs.outputs⟩]
  rw [hrun]
  exact ⟨rfl, ⟨e, dictGet_dictInsert_self _ _ _⟩⟩

/-- Witness for `llm_failure_still_success`: a concrete environment where
everything but the LLM succeeds. -/
theorem llm_failure_still_success_witness :
    (analyze_single_report [(str "CHUNK_ANALYSIS_PROMPT", str "P"),
        (str "SUMMARY_COMBINATION_PROMPT", str "Q")]
      ⟨fun _ _ => Except.ok (str "/tmp/t.pdf"), fun _ => Except.ok [str "w"],
        fun _ => Except.error (str "boom"), true⟩
      (str "m") 2 (str "http://a/b.pdf") (str "out") 1 ⟨0, [], []⟩).1 = true ∧
    ∃ e, dictGet (analyze_single_report [(str "CHUNK_ANALYSIS_PROMPT", str "P"),
        (str "SUMMARY_COMBINATION_PROMPT", str "Q")]
      ⟨fun _ _ => Except.ok (str "/tmp/t.pdf"), fun _ => Except.ok [str "w"],
        fun _ => Except.error (str "boom"), true⟩
      (str "m") 2 (str "http://a/b.pdf") (str "out") 1 ⟨0, [], []⟩).2.outputs
        (str "out" ++ '/' :: outputFilename (str "http://a/b.pdf") 1) =
      some (reportHeader (str "http://a/b.pdf") ++
        (str "Error generating final summary: " ++ e)) :=
  llm_failure_still_success [(str "CHUNK_ANALYSIS_PROMPT", str "P"),
      (str "SUMMARY_COMBINATION_PROMPT", str "Q")]
    ⟨fun _ _ => Except.ok (str "/tmp/t.pdf"), fun _ => Except.ok [str "w"],
      fun _ => Except.error (str "boom"), true⟩
    (str "m") 2 (str "http://a/b.pdf") (str "out") 1 ⟨0, [], []⟩
    (str "/tmp/t.pdf") (str "w") rfl rfl (by decide) (by decide)
    (by decide) (by decide) (fun r => ⟨str "boom", rfl⟩) rfl

/-! ### Batch lemmas -/

/-- Every URL of the batch ends up with an entry in the results dict,
whatever the per-report outcomes: the loop continues past failures. -/
lemma analyzeAllGo_covers (prompts : List (List Char × List Char)) (env : Env)
    (model : List Char) (chunk_size : Nat) (output_dir : List Char) :
    ∀ (urls : List (List Char)) (i : Nat) (results : List (List Char × Bool))
      (fs : FS) (u : List Char), u ∈ urls ∨ dictContains results u = true →
      dictContains (analyzeAllGo prompts env model chunk_size output_dir
        urls i results fs).1 u = true := by
  intro urls
  induction urls with
  | nil =>
    intro i results fs u h
    rcases h with h | h
    · simp at h
    · exact h
  | cons url urls ih =>
    intro i results fs u h
    simp only [analyzeAllGo]
    apply ih
    rcases h with h | h
    · rcases List.mem_cons.mp h with rfl | h
      · exact Or.inr (dictContains_dictInsert_self results u _)
      · exact Or.inl h
    · exact Or.inr (dictContains_dictInsert_mono results url u _ h)

/-- Key distinctness of the results dict is an invariant of the batch
loop, so no URL ever has two entries. -/
lemma analyzeAllGo_keys_nodup (prompts : List (List Char × List Char)) (env : Env)
    (model : List Char) (chunk_size : Nat) (output_dir : List Char) :
    ∀ (urls : List (List Char)) (i : Nat) (results : List (List Char × Bool))
      (fs : FS), (results.map Prod.fst).Nodup →
      (((analyzeAllGo prompts env model chunk_size output_dir
        urls i results fs).1).map Prod.fst).Nodup := by
  intro urls
  induction urls with
  | nil => intro i results fs h; exact h
  | cons url urls ih =>
    intro i results fs h
    simp only [analyzeAllGo]
    exact ih _ _ _ (dictInsert_keys_nodup results url _ h)

/-- A concrete prompt store with both required templates present. -/
def specPrompts : List (List Char × List Char) :=
  [(str "CHUNK_ANALYSIS_PROMPT", str "P"), (str "SUMMARY_COMBINATION_PROMPT", str "Q")]

/-- A concrete environment whose download fails exactly for the second
batch URL and succeeds otherwise; extraction, the LLM and the write all
succeed. -/
def batchEnv : Env :=
  ⟨fun _ url => if url == str "http://b/f.pdf" then Except.error (str "404")
    else Except.ok (str "/tmp/t.pdf"),
   fun _ => Except.ok [str "w"],
   fun _ => Except.ok (str "S"), true⟩

/-- A three-URL batch file; URLs 1 and 3 have an empty host, so their
output files use the 1-based fallback index. -/
def batchUrlFile : List Char := str "http:///a.pdf\nhttp://b/f.pdf\nhttp:///c.pdf"

/-- **C5.**  The batch runs the pipeline once per valid URL, strictly
sequentially in file order, passing the 1-based position as the fallback
index, and records an entry for every URL regardless of each outcome; in
particular for 3 distinct URLs where only URL 2's download fails, the
result mapping is `{url1: true, url2: false, url3: true}` in input
order, URLs 1 and 3 were fully attempted (their output files exist,
named with their 1-based indices), and three download calls were made. -/
theorem batch_sequential_spec :
    (∀ (prompts : List (List Char × List Char)) (env : Env) (model : List Char)
       (chunk_size : Nat) (output_dir : List Char) (urls : List (List Char))
       (i : Nat) (results : List (List Char × Bool)) (fs : FS) (u : List Char),
      u ∈ urls →
      dictContains (analyzeAllGo prompts env model chunk_size output_dir
        urls i results fs).1 u = true) ∧
    analyze_all_reports specPrompts batchEnv (str "m") 2 (some batchUrlFile)
      (str "out") ⟨0, [], []⟩ =
    Except.ok ([(str "http:///a.pdf", true), (str "http://b/f.pdf", false),
        (str "http:///c.pdf", true)],
      ⟨3, [],
        [(str "out/report_1_analysis.txt", reportHeader (str "http:///a.pdf") ++ str "S"),
         (str "out/report_3_analysis.txt", reportHeader (str "http:///c.pdf") ++ str "S")]⟩) := by
  constructor
  · intro prompts env model chunk_size output_dir urls i results fs u hu
    exact analyzeAllGo_covers prompts env model chunk_size output_dir urls i results fs u
      (Or.inl hu)
  · rfl

/-- Witness for `batch_sequential_spec`: the failing URL of the concrete
batch still gets a results entry. -/
theorem batch_sequential_spec_witness :
    dictContains (analyzeAllGo specPrompts batchEnv (str "m") 2 (str "out")
      [str "http:///a.pdf", str "http://b/f.pdf", str "http:///c.pdf"] 1 []
      ⟨0, [], []⟩).1 (str "http://b/f.pdf") = true :=
  batch_sequential_spec.1 specPrompts batchEnv (str "m") 2 (str "out")
    [str "http:///a.pdf", str "http://b/f.pdf", str "http:///c.pdf"] 1 []
    ⟨0, [], []⟩ (str "http://b/f.pdf") (by decide)

/-- A concrete environment whose download succeeds on the first call and
fails on every later one, making the two occurrences of a duplicated URL
behave differently. -/
def dupEnv : Env :=
  ⟨fun t _ => if t == 0 then Except.ok (str "/tmp/t.pdf") else Except.error (str "down"),
   fun _ => Except.ok [str "w"],
   fun _ => Except.ok (str "S"), true⟩

/-- A URL file listing the same URL twice. -/
def dupUrlFile : List Char := str "http:///a.pdf\nhttp:///a.pdf"

/-- **C10.**  A duplicated URL is processed once per occurrence, but the
results dict keeps a single entry per URL (keys stay distinct), holding
the last occurrence's result: here the first occurrence succeeds (its
output file is written and one download call is consumed) and the second
fails, so the final mapping is the singleton `{url: false}` while two
download calls were made — the mapping is smaller than the number of
pipeline invocations. -/
theorem batch_duplicate_url_spec :
    (∀ (prompts : List (List Char × List Char)) (env : Env) (model : List Char)
       (chunk_size : Nat) (output_dir : List Char) (urls : List (List Char))
       (i : Nat) (results : List (List Char × Bool)) (fs : FS),
      (results.map Prod.fst).Nodup →
      (((analyzeAllGo prompts env model chunk_size output_dir
        urls i results fs).1).map Prod.fst).Nodup) ∧
    analyze_all_reports specPrompts dupEnv (str "m") 2 (some dupUrlFile)
      (str "out") ⟨0, [], []⟩ =
    Except.ok ([(str "http:///a.pdf", false)],
      ⟨2, [],
        [(str "out/report_1_analysis.txt",
          reportHeader (str "http:///a.pdf") ++ str "S")]⟩) := by
  constructor
  · intro prompts env model chunk_size output_dir urls i results fs h
    exact analyzeAllGo_keys_nodup prompts env model chunk_size output_dir urls i results fs h
  · rfl

/-- Witness for `batch_duplicate_url_spec`: the concrete duplicate batch
has distinct result keys. -/
theorem batch_duplicate_url_spec_witness :
    (((analyzeAllGo specPrompts dupEnv (str "m") 2 (str "out")
      [str "http:///a.pdf", str "http:///a.pdf"] 1 []
      ⟨0, [], []⟩).1).map Prod.fst).Nodup :=
  batch_duplicate_url_spec.1 specPrompts dupEnv (str "m") 2 (str "out")
    [str "http:///a.pdf", str "http:///a.pdf"] 1 [] ⟨0, [], []⟩ (by decide)

end FRA
